import Mathlib

/-!
Shallow embedding of `src/numeral_systems.rs`: the `NumeralSystem` enum, its
validator `NumeralSystem::apply`, and the `Display` renderer for
`RepresentedNumber`.  Machine integers (`u64`) are modelled as `Nat` with
explicit `% 2 ^ 64` wherever the source computation can overflow; every Rust
panic path (failed `assert!`, out-of-bounds indexing, `ilog` on an invalid
argument, division by zero, `unreachable!`) is modelled by `Option.none`.
-/

set_option maxRecDepth 8000

namespace Numerals

/-- Decidable equality of `Except` values, component-wise. -/
instance {ε α : Type} [DecidableEq ε] [DecidableEq α] : DecidableEq (Except ε α) :=
  fun a b =>
    match a, b with
    | Except.error x, Except.error y =>
        if h : x = y then Decidable.isTrue (congrArg Except.error h)
        else Decidable.isFalse (fun hc => h (by cases hc; rfl))
    | Except.ok x, Except.ok y =>
        if h : x = y then Decidable.isTrue (congrArg Except.ok h)
        else Decidable.isFalse (fun hc => h (by cases hc; rfl))
    | Except.error _, Except.ok _ => Decidable.isFalse (fun hc => Except.noConfusion hc)
    | Except.ok _, Except.error _ => Decidable.isFalse (fun hc => Except.noConfusion hc)

/-- Modulus of 64-bit unsigned arithmetic (`u64`). -/
def U64 : Nat := 2 ^ 64

/-- Fuel-driven floor logarithm.  One unit of fuel is consumed per division by
the base, so any fuel bound above `log b n` computes the exact floor log. -/
def ilogAux (b : Nat) : Nat → Nat → Nat
  | 0, _ => 0
  | fuel + 1, n => if b ≤ n then ilogAux b fuel (n / b) + 1 else 0

/-- Floor logarithm, mirroring `u64::ilog(base)` on its defined domain
(`base ≥ 2` and `self ≥ 1`); 64 units of fuel suffice for every 64-bit input.
Call sites guard the panicking cases (`base < 2` or `self = 0`) explicitly. -/
def ilog (b n : Nat) : Nat := ilogAux b 64 n

/-- The variant tag of the external Chinese-numeral converter. -/
inductive ChineseVariant where
  | Simple : ChineseVariant
  | Traditional : ChineseVariant
deriving DecidableEq, Repr

/-- The case tag of the external Chinese-numeral converter. -/
inductive ChineseCase where
  | Lower : ChineseCase
  | Upper : ChineseCase
deriving DecidableEq, Repr

/-- The `NumeralSystem` enum of the source: a closed union of system kinds.
Slices of the source become lists; `&str` numerals become `String`. -/
inductive NumeralSystem where
  | Positional : List Char → NumeralSystem
  | Bijective : List Char → NumeralSystem
  | Additive : List (String × Nat) → NumeralSystem
  | Symbolic : List Char → NumeralSystem
  | ZeroableFixed : List Char → NumeralSystem
  | NonZeroableFixed : List Char → NumeralSystem
  | Chinese : ChineseVariant → ChineseCase → NumeralSystem
deriving DecidableEq, Repr

/-- The `RepresentedNumber` struct: a number paired with the system that
validated it (the borrowed reference is modelled by value). -/
structure RepresentedNumber where
  system : NumeralSystem
  number : Nat
deriving DecidableEq, Repr

/-- The `RepresentationError` enum: the two failure reasons of the validator. -/
inductive RepresentationError where
  | Zero : RepresentationError
  | TooLarge : RepresentationError
deriving DecidableEq, Repr

/-- The validator `NumeralSystem::apply`, translated arm by arm.  Note that the
`Additive` arm tests only the last entry of the numeral list and never looks at
`number`, exactly as in the source. -/
def NumeralSystem.apply (s : NumeralSystem) (number : Nat) :
    Except RepresentationError RepresentedNumber :=
  match s with
  | NumeralSystem.Positional _ => Except.ok ⟨s, number⟩
  | NumeralSystem.Chinese _ _ => Except.ok ⟨s, number⟩
  | NumeralSystem.Bijective _ =>
      if number = 0 then Except.error RepresentationError.Zero
      else Except.ok ⟨s, number⟩
  | NumeralSystem.Symbolic _ =>
      if number = 0 then Except.error RepresentationError.Zero
      else Except.ok ⟨s, number⟩
  | NumeralSystem.Additive numerals =>
      match numerals.getLast? with
      | some (_, 0) => Except.ok ⟨s, number⟩
      | _ => Except.error RepresentationError.Zero
  | NumeralSystem.ZeroableFixed symbols =>
      if symbols.length ≤ number then Except.error RepresentationError.TooLarge
      else Except.ok ⟨s, number⟩
  | NumeralSystem.NonZeroableFixed symbols =>
      if number = 0 then Except.error RepresentationError.Zero
      else if symbols.length < number then Except.error RepresentationError.TooLarge
      else Except.ok ⟨s, number⟩

/-- Modelled from the spec: the external Chinese-numeral converter
`chinese_numeral(variant, case, n)` is out of scope for the repository and is
"treated as a black box guaranteed total over u64"; only its totality matters
for the claims, so it is modelled by an arbitrary total function. -/
def chineseNumeral (_variant : ChineseVariant) (_case : ChineseCase) (n : Nat) : String :=
  Nat.repr n

/-- The digit-extraction loop shared by the `Positional` and `Bijective` arms of
the renderer: `fuel` iterations of "emit `digits[n / place]`, subtract, divide
the place value by the radix".  An out-of-bounds index or a division by zero is
a Rust panic, modelled by `none`. -/
def extractDigits (digits : List Char) (radix : Nat) : Nat → Nat → Nat → Option (List Char)
  | 0, _, _ => some []
  | fuel + 1, n, place =>
      if place = 0 then none
      else
        match digits[n / place]? with
        | none => none
        | some c =>
            match extractDigits digits radix fuel (n - n / place * place) (place / radix) with
            | none => none
            | some l => some (c :: l)

/-- The `Positional` arm of `Display for RepresentedNumber`.  `n.ilog(radix)`
panics when `radix < 2` (the guard) and is otherwise exact; no intermediate
`u64` computation in this arm can overflow, so plain `Nat` arithmetic is
faithful for every 64-bit input. -/
def positionalRender (digits : List Char) (n : Nat) : Option String :=
  if n = 0 then (digits[0]?).map (fun c => String.mk [c])
  else
    let radix := digits.length
    if radix < 2 then none
    else
      let size := ilog radix n + 1
      (extractDigits digits radix size n (radix ^ (size - 1))).map String.mk

/-- The intermediate digit-count expression `(n + 1) * (radix - 1)` of the
`Bijective` arm, computed as the source computes it: in wrapping 64-bit
arithmetic (`n + 1` wraps first, then the product wraps; `radix - 1` wraps to
`2 ^ 64 - 1` when the digit table is empty). -/
def bijectiveWrapProduct (radix n : Nat) : Nat :=
  ((n + 1) % U64) * ((radix + U64 - 1) % U64) % U64

/-- The `Bijective` arm of `Display for RepresentedNumber`:
`assert_ne!(n, 0)`, digit count `size = ((n + 1) * (radix - 1)).ilog(radix)`
(panicking when `radix < 2` or when the wrapped product is zero), offset
subtraction, then `size` rounds of digit extraction.  When `size = 0` the
extraction loop body never runs and the rendered string is empty (the offset
subtraction cannot underflow: the wrapped product is at most the exact one, so
the offset is at most `n`). -/
def bijectiveRender (digits : List Char) (n : Nat) : Option String :=
  if n = 0 then none
  else
    let radix := digits.length
    let p := bijectiveWrapProduct radix n
    if radix < 2 then none
    else if p = 0 then none
    else
      let size := ilog radix p
      let rest := n - (radix ^ size - 1) / (radix - 1)
      if size = 0 then some (String.mk [])
      else (extractDigits digits radix size rest (radix ^ (size - 1))).map String.mk

/-- Modelled from the spec: the bijective rendering algorithm of spec section
4.3 with exact (arbitrary-precision) arithmetic — digit count
`size = floor(log_radix((n + 1) * (radix - 1)))`, offset subtraction of
`(radix ^ size - 1) / (radix - 1)`, then positional-style extraction of `size`
digits.  This is the reference point for "rendering is correct": the code is
correct at `n` exactly when it agrees with this function.  (`ilog` here is the
exact floor logarithm: see `ilog_eq_log`.) -/
def bijectiveSpec (digits : List Char) (n : Nat) : Option String :=
  if n = 0 then none
  else
    let radix := digits.length
    if radix < 2 then none
    else
      let size := ilog radix ((n + 1) * (radix - 1))
      let rest := n - (radix ^ size - 1) / (radix - 1)
      (extractDigits digits radix size rest (radix ^ (size - 1))).map String.mk

/-- The greedy loop of the `Additive` arm: walk the numeral list in order; skip
entries whose weight is zero or larger than the remaining value; otherwise emit
the numeral `n / weight` times and subtract what was emitted. -/
def additiveLoop : List (String × Nat) → Nat → String
  | [], _ => ""
  | (numeral, weight) :: rest, n =>
      if weight = 0 ∨ n < weight then additiveLoop rest n
      else
        String.join (List.replicate (n / weight) numeral) ++
          additiveLoop rest (n - weight * (n / weight))

/-- The `Additive` arm of `Display for RepresentedNumber`: a zero value is
rendered by the final weight-zero numeral if there is one (`unreachable!`,
i.e. a panic, otherwise); a positive value goes through the greedy loop. -/
def additiveRender (numerals : List (String × Nat)) (n : Nat) : Option String :=
  if n = 0 then
    match numerals.getLast? with
    | some (numeral, 0) => some numeral
    | _ => none
  else some (additiveLoop numerals n)

/-- The `Symbolic` arm of `Display for RepresentedNumber`:
`assert_ne!(n, 0)`, then `n.div_ceil(symbol_count)` copies of
`symbols[(n - 1) % symbol_count]`.  `div_ceil` panics on a zero divisor, hence
the guard on an empty symbol table; for `k ≥ 1`, `n.div_ceil(k) = (n + k - 1) / k`. -/
def symbolicRender (symbols : List Char) (n : Nat) : Option String :=
  if n = 0 then none
  else if symbols.length = 0 then none
  else
    (symbols[(n - 1) % symbols.length]?).map
      (fun c => String.mk (List.replicate ((n + symbols.length - 1) / symbols.length) c))

/-- The full renderer `Display for RepresentedNumber`, dispatching on the
system kind; `render s n` models `format!` on
`RepresentedNumber (system := s, number := n)`, with `none` for a panic. -/
def render : NumeralSystem → Nat → Option String
  | NumeralSystem.Positional digits, n => positionalRender digits n
  | NumeralSystem.Bijective digits, n => bijectiveRender digits n
  | NumeralSystem.Additive numerals, n => additiveRender numerals n
  | NumeralSystem.Symbolic symbols, n => symbolicRender symbols n
  | NumeralSystem.ZeroableFixed symbols, n => (symbols[n]?).map (fun c => String.mk [c])
  | NumeralSystem.NonZeroableFixed symbols, n =>
      if n = 0 then none else (symbols[n - 1]?).map (fun c => String.mk [c])
  | NumeralSystem.Chinese variant c, n => some (chineseNumeral variant c n)

/-- Well-formedness of a system definition together with an input, as needed
for validator/renderer agreement: at least two positional digits, at least two
bijective digits with a non-overflowing digit-count product, a weight-zero
final additive numeral, at least one symbolic symbol. -/
def goodInput : NumeralSystem → Nat → Prop
  | NumeralSystem.Positional digits, _ => 2 ≤ digits.length
  | NumeralSystem.Bijective digits, n =>
      2 ≤ digits.length ∧ (n + 1) * (digits.length - 1) < U64
  | NumeralSystem.Additive numerals, _ => ∃ s, numerals.getLast? = some (s, 0)
  | NumeralSystem.Symbolic symbols, _ => 1 ≤ symbols.length
  | NumeralSystem.ZeroableFixed _, _ => True
  | NumeralSystem.NonZeroableFixed _, _ => True
  | NumeralSystem.Chinese _ _, _ => True

/-- The digits of `NumeralSystem::ARABIC`. -/
def arabicDigits : List Char := ['0', '1', '2', '3', '4', '5', '6', '7', '8', '9']

/-- `NumeralSystem::ARABIC`: base-ten positional Arabic numerals. -/
def arabic : NumeralSystem := NumeralSystem.Positional arabicDigits

/-- The digits of `NumeralSystem::LOWER_LATIN`. -/
def latinChars : List Char :=
  ['a', 'b', 'c', 'd', 'e', 'f', 'g', 'h', 'i', 'j', 'k', 'l', 'm',
   'n', 'o', 'p', 'q', 'r', 's', 't', 'u', 'v', 'w', 'x', 'y', 'z']

/-- `NumeralSystem::LOWER_LATIN`: the 26-letter bijective system a, b, ..., z,
aa, ab, ... -/
def lowerLatin : NumeralSystem := NumeralSystem.Bijective latinChars

/-- The numeral list of `NumeralSystem::LOWER_ROMAN` (overlines are the
combining character U+0305, as in the source). -/
def lowerRomanNumerals : List (String × Nat) :=
  [("m̅", 1000000),
   ("d̅", 500000),
   ("c̅", 100000),
   ("l̅", 50000),
   ("x̅", 10000),
   ("v̅", 5000),
   ("i̅v̅", 4000),
   ("m", 1000),
   ("cm", 900),
   ("d", 500),
   ("cd", 400),
   ("c", 100),
   ("xc", 90),
   ("l", 50),
   ("xl", 40),
   ("x", 10),
   ("ix", 9),
   ("v", 5),
   ("iv", 4),
   ("i", 1),
   ("n", 0)]

/-- `NumeralSystem::LOWER_ROMAN`: lowercase Roman numerals as an additive
system. -/
def lowerRoman : NumeralSystem := NumeralSystem.Additive lowerRomanNumerals

/-- The 51 symbols of `NumeralSystem::CIRCLED_ARABIC`: circled zero (U+24EA),
circled one to twenty (U+2460 to U+2473), circled twenty-one to thirty-five
(U+3251 to U+325F), circled thirty-six to fifty (U+32B1 to U+32C0). -/
def circledChars : List Char :=
  Char.ofNat 0x24EA ::
    ((List.range 20).map (fun i => Char.ofNat (0x2460 + i)) ++
     (List.range 15).map (fun i => Char.ofNat (0x3251 + i)) ++
     (List.range 15).map (fun i => Char.ofNat (0x32B1 + i)))

/-- `NumeralSystem::CIRCLED_ARABIC`: circled Arabic numerals up to fifty. -/
def circledArabic : NumeralSystem := NumeralSystem.ZeroableFixed circledChars

/-- The 10 symbols of `NumeralSystem::DOUBLE_CIRCLED_ARABIC`: double-circled
one to ten (U+24F5 to U+24FE). -/
def doubleCircledChars : List Char :=
  (List.range 10).map (fun i => Char.ofNat (0x24F5 + i))

/-- `NumeralSystem::DOUBLE_CIRCLED_ARABIC`: double-circled Arabic numerals up
to ten. -/
def doubleCircledArabic : NumeralSystem :=
  NumeralSystem.NonZeroableFixed doubleCircledChars

/-- The six symbols of `NumeralSystem::SYMBOL`: asterisk, dagger, double
dagger, section sign, pilcrow, double vertical line. -/
def symbolChars : List Char :=
  [Char.ofNat 0x2A, Char.ofNat 0x2020, Char.ofNat 0x2021,
   Char.ofNat 0xA7, Char.ofNat 0xB6, Char.ofNat 0x2016]

/-- `NumeralSystem::SYMBOL`: the repeating note-symbol system. -/
def symbolSystem : NumeralSystem := NumeralSystem.Symbolic symbolChars

/-- The `Additive` doc example of the source (lines 70 to 82): the start of the
Roman numeral system, whose doc table represents 1 through 7. -/
def docExampleAdditive : List (String × Nat) := [("V", 5), ("IV", 4), ("I", 1)]

/-- A three-symbol bijective digit table, as in the source's `Bijective` doc
example. -/
def threeChars : List Char := ['A', 'B', 'C']

/-- An input for which the bijective digit-count product overflows `u64`
(`(overflowInput + 1) * 2 ≥ 2 ^ 64`) yet the wrapped computation happens to
recover the exact digit count for a three-symbol table. -/
def overflowInput : Nat := 15302204766383240208

/-- Balanced-recursion range checker: `checkRange f fuel lo len` is `true` only
if `f` holds on all of `[lo, lo + len)`.  The divide-and-conquer shape keeps the
evaluation stack logarithmic in `len`, so large concrete ranges can be checked
by kernel reduction. -/
def checkRange (f : Nat → Bool) : Nat → Nat → Nat → Bool
  | 0, _, _ => false
  | fuel + 1, lo, len =>
      if len = 0 then true
      else if len = 1 then f lo
      else
        checkRange f fuel lo (len / 2) &&
          checkRange f fuel (lo + len / 2) (len - len / 2)

/-- Big-endian base-`b` digit list of `n`, with exactly `k` entries (leading
zeros included); meaningful under the invariant `n < b ^ k`. -/
def beDigits (b : Nat) : Nat → Nat → List Nat
  | 0, _ => []
  | k + 1, n => n / b ^ k :: beDigits b k (n % b ^ k)

/-! ### Helper lemmas -/

theorem checkRange_sound (f : Nat → Bool) :
    ∀ (fuel lo len : Nat), checkRange f fuel lo len = true →
      ∀ m, lo ≤ m → m < lo + len → f m = true := by
  intro fuel
  induction fuel with
  | zero =>
      intro lo len h m _ _
      simp [checkRange] at h
  | succ fuel ih =>
      intro lo len h m h1 h2
      rw [checkRange] at h
      by_cases h0 : len = 0
      · omega
      · rw [if_neg h0] at h
        by_cases hl1 : len = 1
        · rw [if_pos hl1] at h
          have hm : m = lo := by omega
          rw [hm]
          exact h
        · rw [if_neg hl1] at h
          obtain ⟨ha, hb⟩ := Bool.and_eq_true_iff.mp h
          by_cases hm : m < lo + len / 2
          · exact ih lo (len / 2) ha m h1 hm
          · exact ih (lo + len / 2) (len - len / 2) hb m (by omega) (by omega)

theorem ilogAux_eq_log {b : Nat} (hb : 2 ≤ b) :
    ∀ (fuel n : Nat), n < b ^ (fuel + 1) → ilogAux b fuel n = Nat.log b n := by
  intro fuel
  induction fuel with
  | zero =>
      intro n hn
      rw [pow_one] at hn
      have h0 : Nat.log b n = 0 := Nat.log_eq_zero_iff.2 (Or.inl hn)
      simp [ilogAux, h0]
  | succ fuel ih =>
      intro n hn
      by_cases h : b ≤ n
      · have hdiv : n / b < b ^ (fuel + 1) := by
          rw [Nat.div_lt_iff_lt_mul (by omega : 0 < b)]
          calc n < b ^ (fuel + 1 + 1) := hn
            _ = b ^ (fuel + 1) * b := pow_succ b (fuel + 1)
        rw [ilogAux, if_pos h, ih (n / b) hdiv,
          ← Nat.log_of_one_lt_of_le (by omega) h]
      · rw [ilogAux, if_neg h]
        have hnb : n < b := by omega
        exact (Nat.log_eq_zero_iff.2 (Or.inl hnb)).symm

theorem ilog_eq_log {b n : Nat} (hb : 2 ≤ b) (hn : n < b ^ 65) :
    ilog b n = Nat.log b n :=
  ilogAux_eq_log hb 64 n hn

theorem ilog_eq_log_of_lt_u64 {b n : Nat} (hb : 2 ≤ b) (hn : n < U64) :
    ilog b n = Nat.log b n := by
  refine ilog_eq_log hb (lt_of_lt_of_le hn ?_)
  calc U64 = 2 ^ 64 := rfl
    _ ≤ b ^ 64 := Nat.pow_le_pow_left hb 64
    _ ≤ b ^ 65 := Nat.pow_le_pow_right (by omega) (by omega)

theorem extractDigits_some (digits : List Char) (radix : Nat)
    (h2 : 2 ≤ radix) (hlen : radix ≤ digits.length) :
    ∀ (k n : Nat), n < radix ^ k →
      ∃ l, extractDigits digits radix k n (radix ^ (k - 1)) = some l ∧ l.length = k := by
  intro k
  induction k with
  | zero => intro n _; exact ⟨[], rfl, rfl⟩
  | succ k ih =>
      intro n hn
      have hpk : 0 < radix ^ k := Nat.pos_pow_of_pos k (by omega)
      have hmsd : n / radix ^ k < radix := by
        rw [Nat.div_lt_iff_lt_mul hpk]
        calc n < radix ^ (k + 1) := hn
          _ = radix ^ k * radix := pow_succ radix k
          _ = radix * radix ^ k := Nat.mul_comm _ _
      have hidx : n / radix ^ k < digits.length := lt_of_lt_of_le hmsd hlen
      have hplace : (radix ^ (k + 1 - 1) : Nat) = radix ^ k := by
        simp
      rw [hplace]
      have hrem : n - n / radix ^ k * radix ^ k = n % radix ^ k :=
        Nat.sub_eq_of_eq_add (Nat.mod_add_div' n (radix ^ k)).symm
      cases k with
      | zero =>
          refine ⟨[digits.get ⟨n / radix ^ 0, hidx⟩], ?_, rfl⟩
          rw [extractDigits, if_neg (by omega : ¬ (radix ^ 0 : Nat) = 0),
            List.getElem?_eq_getElem hidx]
          simp [extractDigits]
      | succ j =>
          have hmod : n % radix ^ (j + 1) < radix ^ (j + 1) :=
            Nat.mod_lt _ (Nat.pos_pow_of_pos _ (by omega))
          obtain ⟨l, hl, hlen'⟩ := ih (n % radix ^ (j + 1)) hmod
          have hdiv : (radix ^ (j + 1) / radix : Nat) = radix ^ (j + 1 - 1) := by
            rw [pow_succ, Nat.mul_div_cancel _ (by omega : 0 < radix)]
            simp
          refine ⟨digits.get ⟨n / radix ^ (j + 1), hidx⟩ :: l, ?_, by simp [hlen']⟩
          rw [extractDigits, if_neg (by positivity : ¬ (radix ^ (j + 1) : Nat) = 0),
            List.getElem?_eq_getElem hidx, hrem, hdiv, hl]
          rfl

theorem positionalRender_zero (digits : List Char) (h : 0 < digits.length) :
    positionalRender digits 0 = some (String.mk [digits.get ⟨0, h⟩]) := by
  rw [positionalRender, if_pos rfl, List.getElem?_eq_getElem h]
  rfl

theorem positionalRender_pos (digits : List Char) (n : Nat)
    (h2 : 2 ≤ digits.length) (h1 : 1 ≤ n) (hn : n < U64) :
    positionalRender digits n =
      (extractDigits digits digits.length (Nat.log digits.length n + 1) n
        (digits.length ^ (Nat.log digits.length n + 1 - 1))).map String.mk := by
  have h0 : ¬ n = 0 := by omega
  have hlt : ¬ digits.length < 2 := by omega
  simp only [positionalRender, if_neg h0, if_neg hlt, ilog_eq_log_of_lt_u64 h2 hn]

theorem positionalRender_pos_some (digits : List Char) (n : Nat)
    (h2 : 2 ≤ digits.length) (h1 : 1 ≤ n) (hn : n < U64) :
    ∃ l, positionalRender digits n = some (String.mk l) ∧
      l.length = Nat.log digits.length n + 1 := by
  obtain ⟨l, hl, hlen⟩ := extractDigits_some digits digits.length h2 le_rfl
    (Nat.log digits.length n + 1) n (Nat.lt_pow_succ_log_self (by omega) n)
  exact ⟨l, by rw [positionalRender_pos digits n h2 h1 hn, hl]; rfl, hlen⟩

theorem bijectiveWrapProduct_eq (radix n : Nat) (h2 : 2 ≤ radix)
    (hov : (n + 1) * (radix - 1) < U64) :
    bijectiveWrapProduct radix n = (n + 1) * (radix - 1) := by
  have hU : 0 < U64 := by rw [U64]; positivity
  have hn1 : n + 1 < U64 :=
    lt_of_le_of_lt (Nat.le_mul_of_pos_right (n + 1) (by omega)) hov
  have hr1 : radix - 1 < U64 :=
    lt_of_le_of_lt (Nat.le_mul_of_pos_left (radix - 1) (by omega)) hov
  have e : radix + U64 - 1 = (radix - 1) + U64 := by omega
  rw [bijectiveWrapProduct, Nat.mod_eq_of_lt hn1, e, Nat.add_mod_right,
    Nat.mod_eq_of_lt hr1, Nat.mod_eq_of_lt hov]

theorem bijective_offset_bounds (r n : Nat) (h2 : 2 ≤ r) (h1 : 1 ≤ n) :
    (r ^ Nat.log r ((n + 1) * (r - 1)) - 1) / (r - 1) ≤ n ∧
    n - (r ^ Nat.log r ((n + 1) * (r - 1)) - 1) / (r - 1) <
      r ^ Nat.log r ((n + 1) * (r - 1)) := by
  obtain ⟨a, rfl⟩ : ∃ a, r = a + 2 := ⟨r - 2, by omega⟩
  have e1 : a + 2 - 1 = a + 1 := by omega
  rw [e1]
  set s := Nat.log (a + 2) ((n + 1) * (a + 1)) with hs
  set A := (a + 2) ^ s with hA
  have hP0 : (n + 1) * (a + 1) ≠ 0 := by positivity
  have hA1 : 1 ≤ A := Nat.one_le_pow s (a + 2) (by omega)
  have hple : A ≤ (n + 1) * (a + 1) := Nat.pow_log_le_self (a + 2) hP0
  have hplt : (n + 1) * (a + 1) < (a + 2) ^ (s + 1) :=
    Nat.lt_pow_succ_log_self (by omega) _
  -- the offset is at most n
  have hdd : (A - 1) / (a + 1) ≤ ((n + 1) * (a + 1) - 1) / (a + 1) :=
    Nat.div_le_div_right (by omega)
  have hexp : (n + 1) * (a + 1) = n * (a + 1) + (a + 1) := by ring
  have heq : ((n + 1) * (a + 1) - 1) / (a + 1) = n := by
    have e2 : (n + 1) * (a + 1) - 1 = a + n * (a + 1) := by omega
    rw [e2, Nat.add_mul_div_right a n (by omega : 0 < a + 1),
      Nat.div_eq_of_lt (by omega : a < a + 1)]
    omega
  -- the rest after offset subtraction fits in `size` digits
  have e3 : (a + 2) ^ (s + 1) = A * (a + 2) := pow_succ (a + 2) s
  have e4 : A * (a + 2) = A * (a + 1) + A := by ring
  have hgeom : ((a + 2) ^ (s + 1) - 1) / (a + 1) = (A - 1) / (a + 1) + A := by
    have e5 : (a + 2) ^ (s + 1) - 1 = (A - 1) + A * (a + 1) := by omega
    rw [e5, Nat.add_mul_div_right (A - 1) A (by omega : 0 < a + 1)]
  have h7 : (n + 1) * (a + 1) / (a + 1) ≤ ((a + 2) ^ (s + 1) - 1) / (a + 1) :=
    Nat.div_le_div_right (by omega)
  have h8 : (n + 1) * (a + 1) / (a + 1) = n + 1 :=
    Nat.mul_div_cancel (n + 1) (by omega)
  omega

theorem bijectiveRender_no_overflow (digits : List Char) (n : Nat)
    (h2 : 2 ≤ digits.length) (h1 : 1 ≤ n)
    (hov : (n + 1) * (digits.length - 1) < U64) :
    bijectiveRender digits n =
      (extractDigits digits digits.length
        (Nat.log digits.length ((n + 1) * (digits.length - 1)))
        (n - (digits.length ^ Nat.log digits.length ((n + 1) * (digits.length - 1)) - 1) /
          (digits.length - 1))
        (digits.length ^ (Nat.log digits.length ((n + 1) * (digits.length - 1)) - 1))).map
        String.mk := by
  have hP0 : ¬ (n + 1) * (digits.length - 1) = 0 :=
    Nat.mul_ne_zero (by omega) (by omega)
  have h2r : 2 * (digits.length - 1) ≤ (n + 1) * (digits.length - 1) :=
    Nat.mul_le_mul_right _ (by omega)
  have hrP : digits.length ≤ (n + 1) * (digits.length - 1) := by omega
  have hpow1 : digits.length ^ 1 ≤ (n + 1) * (digits.length - 1) := by
    rw [pow_one]; exact hrP
  have hs1 : 1 ≤ Nat.log digits.length ((n + 1) * (digits.length - 1)) :=
    (Nat.pow_le_iff_le_log (by omega : 1 < digits.length) hP0).1 hpow1
  have h0 : ¬ n = 0 := by omega
  have hlt : ¬ digits.length < 2 := by omega
  have hwrap : bijectiveWrapProduct digits.length n = (n + 1) * (digits.length - 1) :=
    bijectiveWrapProduct_eq digits.length n h2 hov
  have hilog : ilog digits.length ((n + 1) * (digits.length - 1)) =
      Nat.log digits.length ((n + 1) * (digits.length - 1)) :=
    ilog_eq_log_of_lt_u64 h2 hov
  have hsne : ¬ Nat.log digits.length ((n + 1) * (digits.length - 1)) = 0 := by omega
  simp only [bijectiveRender, if_neg h0, hwrap, if_neg hlt, if_neg hP0, hilog, if_neg hsne]

theorem bijectiveRender_some (digits : List Char) (n : Nat)
    (h2 : 2 ≤ digits.length) (h1 : 1 ≤ n)
    (hov : (n + 1) * (digits.length - 1) < U64) :
    ∃ l, bijectiveRender digits n = some (String.mk l) ∧
      l.length = Nat.log digits.length ((n + 1) * (digits.length - 1)) := by
  obtain ⟨hle, hrest⟩ := bijective_offset_bounds digits.length n h2 h1
  obtain ⟨l, hl, hlen⟩ := extractDigits_some digits digits.length h2 le_rfl
    (Nat.log digits.length ((n + 1) * (digits.length - 1)))
    (n - (digits.length ^ Nat.log digits.length ((n + 1) * (digits.length - 1)) - 1) /
      (digits.length - 1)) hrest
  exact ⟨l, by rw [bijectiveRender_no_overflow digits n h2 h1 hov, hl]; rfl, hlen⟩

theorem bijectiveSpec_eq (digits : List Char) (n : Nat)
    (h2 : 2 ≤ digits.length) (h1 : 1 ≤ n) (hn : n < U64) :
    bijectiveSpec digits n =
      (extractDigits digits digits.length
        (Nat.log digits.length ((n + 1) * (digits.length - 1)))
        (n - (digits.length ^ Nat.log digits.length ((n + 1) * (digits.length - 1)) - 1) /
          (digits.length - 1))
        (digits.length ^ (Nat.log digits.length ((n + 1) * (digits.length - 1)) - 1))).map
        String.mk := by
  have h0 : ¬ n = 0 := by omega
  have hlt : ¬ digits.length < 2 := by omega
  have hU : 0 < U64 := by rw [U64]; positivity
  have t1 : (n + 1) * (digits.length - 1) ≤ U64 * (digits.length - 1) :=
    Nat.mul_le_mul_right _ (by omega)
  have u1 : U64 * (digits.length - 1 + 1) = U64 * (digits.length - 1) + U64 := by ring
  have u2 : digits.length - 1 + 1 = digits.length := by omega
  have u3 : U64 * digits.length = U64 * (digits.length - 1) + U64 := by
    conv_lhs => rw [← u2]
    exact u1
  have t2 : U64 * digits.length ≤ digits.length ^ 64 * digits.length :=
    Nat.mul_le_mul_right _ (Nat.pow_le_pow_left h2 64)
  have t3 : digits.length ^ 64 * digits.length = digits.length ^ 65 :=
    (pow_succ digits.length 64).symm
  have hP65 : (n + 1) * (digits.length - 1) < digits.length ^ 65 := by omega
  have hilog : ilog digits.length ((n + 1) * (digits.length - 1)) =
      Nat.log digits.length ((n + 1) * (digits.length - 1)) :=
    ilog_eq_log h2 hP65
  simp only [bijectiveSpec, if_neg h0, if_neg hlt, hilog]

theorem beDigits_lt (b : Nat) :
    ∀ (k n : Nat), n < b ^ k → ∀ d ∈ beDigits b k n, d < b := by
  intro k
  induction k with
  | zero => intro n _ d hd; simp [beDigits] at hd
  | succ k ih =>
      intro n hn d hd
      have hb : 0 < b := by
        rcases Nat.eq_zero_or_pos b with h | h
        · subst h; simp at hn
        · exact h
      rw [beDigits] at hd
      rcases List.mem_cons.mp hd with h | h
      · subst h
        rw [Nat.div_lt_iff_lt_mul (Nat.pos_pow_of_pos k hb)]
        calc n < b ^ (k + 1) := hn
          _ = b ^ k * b := pow_succ b k
          _ = b * b ^ k := Nat.mul_comm _ _
      · exact ih (n % b ^ k) (Nat.mod_lt _ (Nat.pos_pow_of_pos k hb)) d h

theorem beDigits_snoc (b : Nat) (hb : 2 ≤ b) :
    ∀ (k n : Nat), n < b ^ (k + 1) →
      beDigits b (k + 1) n = beDigits b k (n / b) ++ [n % b] := by
  intro k
  induction k with
  | zero =>
      intro n hn
      rw [pow_one] at hn
      simp [beDigits, Nat.mod_eq_of_lt hn]
  | succ k ih =>
      intro n hn
      have hbpos : 0 < b := by omega
      have hinv : n % b ^ (k + 1) < b ^ (k + 1) :=
        Nat.mod_lt _ (Nat.pos_pow_of_pos _ hbpos)
      have f1 : n / b / b ^ k = n / b ^ (k + 1) := by
        rw [Nat.div_div_eq_div_mul, ← pow_succ']
      have f2 : n % b ^ (k + 1) / b = n / b % b ^ k := by
        have h := Nat.mod_mul_right_div_self n b (b ^ k)
        rw [← pow_succ'] at h
        exact h
      have f3 : n % b ^ (k + 1) % b = n % b :=
        Nat.mod_mod_of_dvd n (dvd_pow_self b (Nat.succ_ne_zero k))
      show n / b ^ (k + 1) :: beDigits b (k + 1) (n % b ^ (k + 1)) = _
      rw [ih (n % b ^ (k + 1)) hinv, f2, f3]
      show _ = (n / b / b ^ k :: beDigits b k (n / b % b ^ k)) ++ [n % b]
      rw [f1]
      rfl

theorem extractDigits_eq (digits : List Char) (h2 : 2 ≤ digits.length) :
    ∀ (k n : Nat), n < digits.length ^ k →
      extractDigits digits digits.length k n (digits.length ^ (k - 1)) =
        some ((beDigits digits.length k n).map
          (fun d => digits.getD d (Char.ofNat 65))) := by
  intro k
  induction k with
  | zero => intro n _; rfl
  | succ k ih =>
      intro n hn
      have hpk : 0 < digits.length ^ k := Nat.pos_pow_of_pos k (by omega)
      have hmsd : n / digits.length ^ k < digits.length := by
        rw [Nat.div_lt_iff_lt_mul hpk]
        calc n < digits.length ^ (k + 1) := hn
          _ = digits.length ^ k * digits.length := pow_succ digits.length k
          _ = digits.length * digits.length ^ k := Nat.mul_comm _ _
      have hplace : (digits.length ^ (k + 1 - 1) : Nat) = digits.length ^ k := by simp
      rw [hplace]
      have hrem : n - n / digits.length ^ k * digits.length ^ k = n % digits.length ^ k :=
        Nat.sub_eq_of_eq_add (Nat.mod_add_div' n (digits.length ^ k)).symm
      have hgetD : digits.getD (n / digits.length ^ k) (Char.ofNat 65) =
          digits.get ⟨n / digits.length ^ k, hmsd⟩ := by
        rw [List.getD_eq_getElem?_getD, List.getElem?_eq_getElem hmsd]
        rfl
      cases k with
      | zero =>
          rw [extractDigits, if_neg (by omega : ¬ (digits.length ^ 0 : Nat) = 0),
            List.getElem?_eq_getElem hmsd]
          show some [digits.get ⟨n / digits.length ^ 0, hmsd⟩] = _
          rw [beDigits]
          show _ = some [digits.getD (n / digits.length ^ 0) (Char.ofNat 65)]
          rw [hgetD]
      | succ j =>
          have hmod : n % digits.length ^ (j + 1) < digits.length ^ (j + 1) :=
            Nat.mod_lt _ (Nat.pos_pow_of_pos _ (by omega))
          have hdiv : (digits.length ^ (j + 1) / digits.length : Nat) =
              digits.length ^ (j + 1 - 1) := by
            rw [pow_succ, Nat.mul_div_cancel _ (by omega : 0 < digits.length)]
            simp
          rw [extractDigits, if_neg (by positivity : ¬ (digits.length ^ (j + 1) : Nat) = 0),
            List.getElem?_eq_getElem hmsd, hrem, hdiv, ih (n % digits.length ^ (j + 1)) hmod]
          show some (digits.get ⟨n / digits.length ^ (j + 1), hmsd⟩ ::
              (beDigits digits.length (j + 1) (n % digits.length ^ (j + 1))).map
                (fun d => digits.getD d (Char.ofNat 65))) =
            some ((beDigits digits.length (j + 1 + 1) n).map
              (fun d => digits.getD d (Char.ofNat 65)))
          rw [← hgetD]
          rfl

theorem toDigitsCore_eq (b : Nat) (hb : 2 ≤ b) :
    ∀ (fuel n : Nat) (acc : List Char), 1 ≤ n → Nat.log b n < fuel →
      Nat.toDigitsCore b fuel n acc =
        (beDigits b (Nat.log b n + 1) n).map Nat.digitChar ++ acc := by
  intro fuel
  induction fuel with
  | zero => intro n acc _ hf; omega
  | succ fuel ih =>
      intro n acc h1 hf
      by_cases hnb : n / b = 0
      · have hlt : n < b := by
          by_contra hc
          have : 1 ≤ n / b := (Nat.one_le_div_iff (by omega)).2 (by omega)
          omega
        have hlog : Nat.log b n = 0 := Nat.log_eq_zero_iff.2 (Or.inl hlt)
        rw [Nat.toDigitsCore]
        simp only [hnb, if_pos rfl, hlog]
        rw [beDigits, beDigits]
        simp [Nat.mod_eq_of_lt hlt]
      · have hge : b ≤ n := by
          by_contra hc
          exact hnb (Nat.div_eq_of_lt (by omega))
        have hlog : Nat.log b n = Nat.log b (n / b) + 1 :=
          Nat.log_of_one_lt_of_le (by omega) hge
        have hfl : Nat.log b (n / b) < fuel := by omega
        have h1' : 1 ≤ n / b := (Nat.one_le_div_iff (by omega)).2 hge
        have hinv : n < b ^ (Nat.log b (n / b) + 1 + 1) := by
          have := Nat.lt_pow_succ_log_self (by omega : 1 < b) n
          rw [hlog] at this
          exact this
        rw [Nat.toDigitsCore]
        simp only [hnb, if_neg hnb]
        rw [ih (n / b) (Nat.digitChar (n % b) :: acc) h1' hfl, hlog,
          beDigits_snoc b hb (Nat.log b (n / b) + 1) n hinv, List.map_append]
        simp

theorem arabic_decimal (n : Nat) (hn : n < U64) :
    positionalRender arabicDigits n = some (Nat.repr n) := by
  by_cases h0 : n = 0
  · subst h0; decide
  · have h2 : (2 : Nat) ≤ arabicDigits.length := by decide
    have h1 : 1 ≤ n := by omega
    have hk : n < arabicDigits.length ^ (Nat.log arabicDigits.length n + 1) :=
      Nat.lt_pow_succ_log_self (by decide) n
    rw [positionalRender_pos arabicDigits n h2 h1 hn,
      extractDigits_eq arabicDigits h2 (Nat.log arabicDigits.length n + 1) n hk]
    have hdig := beDigits_lt arabicDigits.length
      (Nat.log arabicDigits.length n + 1) n hk
    have hpoint : ∀ d, d < 10 → arabicDigits.getD d (Char.ofNat 65) = Nat.digitChar d := by
      decide
    have hmap : (beDigits arabicDigits.length (Nat.log arabicDigits.length n + 1) n).map
          (fun d => arabicDigits.getD d (Char.ofNat 65)) =
        (beDigits arabicDigits.length (Nat.log arabicDigits.length n + 1) n).map
          Nat.digitChar :=
      List.map_congr_left (fun d hd => hpoint d (hdig d hd))
    rw [hmap]
    have hrepr : Nat.repr n =
        ((beDigits 10 (Nat.log 10 n + 1) n).map Nat.digitChar).asString := by
      have hfuel : Nat.log 10 n < n + 1 := by
        have := Nat.log_le_self 10 n
        omega
      rw [Nat.repr, Nat.toDigits, toDigitsCore_eq 10 (by omega) (n + 1) n [] h1 hfuel,
        List.append_nil]
    rw [hrepr]
    rfl

theorem apply_positional (digits : List Char) (n : Nat) :
    (NumeralSystem.Positional digits).apply n =
      Except.ok ⟨NumeralSystem.Positional digits, n⟩ := rfl

theorem apply_bijective (digits : List Char) (n : Nat) :
    (NumeralSystem.Bijective digits).apply n =
      if n = 0 then Except.error RepresentationError.Zero
      else Except.ok ⟨NumeralSystem.Bijective digits, n⟩ := rfl

theorem apply_symbolic (symbols : List Char) (n : Nat) :
    (NumeralSystem.Symbolic symbols).apply n =
      if n = 0 then Except.error RepresentationError.Zero
      else Except.ok ⟨NumeralSystem.Symbolic symbols, n⟩ := rfl

theorem apply_zeroable (symbols : List Char) (n : Nat) :
    (NumeralSystem.ZeroableFixed symbols).apply n =
      if symbols.length ≤ n then Except.error RepresentationError.TooLarge
      else Except.ok ⟨NumeralSystem.ZeroableFixed symbols, n⟩ := rfl

theorem apply_nonzeroable (symbols : List Char) (n : Nat) :
    (NumeralSystem.NonZeroableFixed symbols).apply n =
      if n = 0 then Except.error RepresentationError.Zero
      else if symbols.length < n then Except.error RepresentationError.TooLarge
      else Except.ok ⟨NumeralSystem.NonZeroableFixed symbols, n⟩ := rfl

theorem apply_additive_zero_last (numerals : List (String × Nat)) (n : Nat) (s : String)
    (hz : numerals.getLast? = some (s, 0)) :
    (NumeralSystem.Additive numerals).apply n =
      Except.ok ⟨NumeralSystem.Additive numerals, n⟩ := by
  simp only [NumeralSystem.apply]
  rw [hz]

theorem apply_additive_no_zero_last (numerals : List (String × Nat)) (n : Nat)
    (hz : ∀ s, ¬ numerals.getLast? = some (s, 0)) :
    (NumeralSystem.Additive numerals).apply n = Except.error RepresentationError.Zero := by
  simp only [NumeralSystem.apply]

theorem additiveRender_zero (numerals : List (String × Nat)) (s : String)
    (hz : numerals.getLast? = some (s, 0)) :
    additiveRender numerals 0 = some s := by
  rw [additiveRender, if_pos rfl, hz]

theorem additiveRender_pos (numerals : List (String × Nat)) (n : Nat) (h1 : 1 ≤ n) :
    additiveRender numerals n = some (additiveLoop numerals n) := by
  rw [additiveRender, if_neg (by omega)]

theorem symbolicRender_pos (symbols : List Char) (n : Nat)
    (hk : 1 ≤ symbols.length) (h1 : 1 ≤ n) :
    symbolicRender symbols n =
      some (String.mk (List.replicate ((n + symbols.length - 1) / symbols.length)
        (symbols.get ⟨(n - 1) % symbols.length, Nat.mod_lt _ (by omega)⟩))) := by
  rw [symbolicRender, if_neg (by omega), if_neg (by omega),
    List.getElem?_eq_getElem (Nat.mod_lt _ (by omega))]
  rfl

/-! ### Claim theorems -/

/-- C1: the spec says `apply` on an Additive system succeeds for every n ≥ 1,
and for n = 0 exactly when the numeral list ends in a weight-0 entry.  The code
instead ignores the number entirely and rejects every n whenever the last
weight is nonzero: on the source's own Additive doc example
`[("V", 5), ("IV", 4), ("I", 1)]` — documented as representing every positive
integer, with 1 rendered as "I" — `apply 1` returns `Err(Zero)` even though
the renderer would happily produce "I".  This contradicts the code's own
documentation, so the claim is right and the code is wrong; the theorem
evaluates the code at the failing input. -/
theorem C1_additive_apply_rejects_positive :
    (NumeralSystem.Additive docExampleAdditive).apply 1 =
      Except.error RepresentationError.Zero ∧
    additiveRender docExampleAdditive 1 = some ("I") := by decide

/-- C2 counterexample: the claim asserts validator/renderer agreement and
panic-freedom for every well-formed system, counting a Bijective system with
at least one symbol as well-formed.  With the one-symbol table `['a']` and
n = 1, `apply` succeeds but the renderer panics (`ilog` with base 1), refuting
the claim as stated. -/
theorem C2_counterexample :
    (NumeralSystem.Bijective ['a']).apply 1 =
      Except.ok ⟨NumeralSystem.Bijective ['a'], 1⟩ ∧
    render (NumeralSystem.Bijective ['a']) 1 = none := by decide

/-- C2 (amended): for every 64-bit input and every system that is well-formed
in the corrected sense — Positional with at least 2 symbols; Bijective with at
least 2 symbols and a non-overflowing digit-count product
`(n + 1) * (radix - 1) < 2 ^ 64`; Additive whose last numeral has weight 0;
Symbolic with at least 1 symbol; the fixed and Chinese kinds unrestricted —
`apply` succeeds if and only if rendering succeeds (returns a string rather
than panicking or indexing out of bounds). -/
theorem C2_agreement (s : NumeralSystem) (n : Nat) (hn : n < U64)
    (hgood : goodInput s n) :
    (∃ r, s.apply n = Except.ok r) ↔ (∃ out, render s n = some out) := by
  cases s with
  | Positional digits =>
      have h2 : 2 ≤ digits.length := hgood
      constructor
      · intro _
        rcases Nat.eq_zero_or_pos n with h0 | h1
        · subst h0
          exact ⟨_, positionalRender_zero digits (by omega)⟩
        · obtain ⟨l, hl, _⟩ := positionalRender_pos_some digits n h2 h1 hn
          exact ⟨_, hl⟩
      · intro _
        exact ⟨_, apply_positional digits n⟩
  | Bijective digits =>
      obtain ⟨h2, hov⟩ := hgood
      constructor
      · rintro ⟨r, hr⟩
        have h1 : 1 ≤ n := by
          rcases Nat.eq_zero_or_pos n with h0 | h1
          · subst h0
            rw [apply_bijective, if_pos rfl] at hr
            exact Except.noConfusion hr
          · exact h1
        obtain ⟨l, hl, _⟩ := bijectiveRender_some digits n h2 h1 hov
        exact ⟨_, hl⟩
      · rintro ⟨out, hout⟩
        have h1 : ¬ n = 0 := by
          intro h0
          subst h0
          rw [show render (NumeralSystem.Bijective digits) 0 = none from rfl] at hout
          exact Option.noConfusion hout
        rw [apply_bijective, if_neg h1]
        exact ⟨_, rfl⟩
  | Additive numerals =>
      obtain ⟨z, hz⟩ := hgood
      constructor
      · intro _
        rcases Nat.eq_zero_or_pos n with h0 | h1
        · subst h0
          exact ⟨z, additiveRender_zero numerals z hz⟩
        · exact ⟨_, additiveRender_pos numerals n h1⟩
      · intro _
        exact ⟨_, apply_additive_zero_last numerals n z hz⟩
  | Symbolic symbols =>
      have hk : 1 ≤ symbols.length := hgood
      constructor
      · rintro ⟨r, hr⟩
        have h1 : 1 ≤ n := by
          rcases Nat.eq_zero_or_pos n with h0 | h1
          · subst h0
            rw [apply_symbolic, if_pos rfl] at hr
            exact Except.noConfusion hr
          · exact h1
        exact ⟨_, symbolicRender_pos symbols n hk h1⟩
      · rintro ⟨out, hout⟩
        have h1 : ¬ n = 0 := by
          intro h0
          subst h0
          rw [show render (NumeralSystem.Symbolic symbols) 0 = none from rfl] at hout
          exact Option.noConfusion hout
        rw [apply_symbolic, if_neg h1]
        exact ⟨_, rfl⟩
  | ZeroableFixed symbols =>
      constructor
      · rintro ⟨r, hr⟩
        rw [apply_zeroable] at hr
        by_cases hc : symbols.length ≤ n
        · rw [if_pos hc] at hr
          exact Except.noConfusion hr
        · have hlt : n < symbols.length := by omega
          refine ⟨String.mk [symbols.get ⟨n, hlt⟩], ?_⟩
          show (symbols[n]?).map (fun c => String.mk [c]) = _
          rw [List.getElem?_eq_getElem hlt]
          rfl
      · rintro ⟨out, hout⟩
        have hlt : n < symbols.length := by
          by_contra hc
          have hnone : symbols[n]? = none := List.getElem?_eq_none (by omega)
          rw [show render (NumeralSystem.ZeroableFixed symbols) n =
            (symbols[n]?).map (fun c => String.mk [c]) from rfl, hnone] at hout
          exact Option.noConfusion hout
        rw [apply_zeroable, if_neg (by omega)]
        exact ⟨_, rfl⟩
  | NonZeroableFixed symbols =>
      constructor
      · rintro ⟨r, hr⟩
        rw [apply_nonzeroable] at hr
        by_cases h0 : n = 0
        · rw [if_pos h0] at hr
          exact Except.noConfusion hr
        · rw [if_neg h0] at hr
          by_cases hc : symbols.length < n
          · rw [if_pos hc] at hr
            exact Except.noConfusion hr
          · have hlt : n - 1 < symbols.length := by omega
            refine ⟨String.mk [symbols.get ⟨n - 1, hlt⟩], ?_⟩
            show (if n = 0 then none
              else (symbols[n - 1]?).map (fun c => String.mk [c])) = _
            rw [if_neg h0, List.getElem?_eq_getElem hlt]
            rfl
      · rintro ⟨out, hout⟩
        rw [show render (NumeralSystem.NonZeroableFixed symbols) n =
          (if n = 0 then none
            else (symbols[n - 1]?).map (fun c => String.mk [c])) from rfl] at hout
        by_cases h0 : n = 0
        · rw [if_pos h0] at hout
          exact Option.noConfusion hout
        · rw [if_neg h0] at hout
          have hlt : n - 1 < symbols.length := by
            by_contra hc
            rw [List.getElem?_eq_none (by omega)] at hout
            exact Option.noConfusion hout
          rw [apply_nonzeroable, if_neg h0, if_neg (by omega)]
          exact ⟨_, rfl⟩
  | Chinese v c =>
      exact ⟨fun _ => ⟨_, rfl⟩, fun _ => ⟨_, rfl⟩⟩

/-- Witness for C2 at the base-ten Arabic system and n = 42. -/
theorem C2_agreement_witness :
    (∃ r, arabic.apply 42 = Except.ok r) ↔ (∃ out, render arabic 42 = some out) :=
  C2_agreement arabic 42 (by decide) (show 2 ≤ arabicDigits.length by decide)

/-- C3 counterexample: the claim asserts that rendering succeeds for every
Bijective system with radix ≥ 1 and every n ≥ 1, but with the one-symbol table
`['z']` rendering 1 panics (`ilog` with base below 2). -/
theorem C3_counterexample :
    render (NumeralSystem.Bijective ['z']) 1 = none := by decide

/-- C3 (amended): for every Bijective system with radix ≥ 2 and every n ≥ 1
with `(n + 1) * (radix - 1) < 2 ^ 64`, rendering succeeds and proceeds exactly
as specified: it first subtracts `(radix ^ size - 1) / (radix - 1)` from n and
then extracts digits most-significant-first by repeated division by place
values, and the output has exactly
`size = floor(log_radix((n + 1) * (radix - 1)))` symbols. -/
theorem C3_bijective_renders (digits : List Char) (n : Nat)
    (h2 : 2 ≤ digits.length) (h1 : 1 ≤ n)
    (hov : (n + 1) * (digits.length - 1) < U64) :
    bijectiveRender digits n =
      (extractDigits digits digits.length
        (Nat.log digits.length ((n + 1) * (digits.length - 1)))
        (n - (digits.length ^ Nat.log digits.length ((n + 1) * (digits.length - 1)) - 1) /
          (digits.length - 1))
        (digits.length ^ (Nat.log digits.length ((n + 1) * (digits.length - 1)) - 1))).map
        String.mk ∧
    ∃ l, bijectiveRender digits n = some (String.mk l) ∧
      l.length = Nat.log digits.length ((n + 1) * (digits.length - 1)) :=
  ⟨bijectiveRender_no_overflow digits n h2 h1 hov,
   bijectiveRender_some digits n h2 h1 hov⟩

/-- Witness for C3 at the 26-symbol Latin table and n = 703 (rendered "aaa",
three symbols). -/
theorem C3_bijective_renders_witness :
    ∃ l, bijectiveRender latinChars 703 = some (String.mk l) ∧
      l.length = Nat.log latinChars.length ((703 + 1) * (latinChars.length - 1)) :=
  (C3_bijective_renders latinChars 703 (by decide) (by decide) (by decide)).2

/-- C4: in a Positional system with radix ≥ 2, rendering 0 emits exactly the
symbol at index 0; rendering n ≥ 1 proceeds by `size = floor(log_radix n) + 1`
rounds of digit extraction starting from place value `radix ^ (size - 1)` and
emits exactly `size` symbols; and rendering any n in [0, 9999] in the base-ten
system with digits 0 through 9 equals ordinary decimal formatting
(`Nat.repr`). -/
theorem C4_positional (digits : List Char) (n : Nat)
    (h2 : 2 ≤ digits.length) (hn : n < U64) :
    positionalRender digits 0 = some (String.mk [digits.get ⟨0, by omega⟩]) ∧
    (1 ≤ n → positionalRender digits n =
      (extractDigits digits digits.length (Nat.log digits.length n + 1) n
        (digits.length ^ (Nat.log digits.length n + 1 - 1))).map String.mk) ∧
    (1 ≤ n → ∃ l, positionalRender digits n = some (String.mk l) ∧
      l.length = Nat.log digits.length n + 1) ∧
    (∀ m, m < 10000 → positionalRender arabicDigits m = some (Nat.repr m)) :=
  ⟨positionalRender_zero digits (by omega),
   fun h1 => positionalRender_pos digits n h2 h1 hn,
   fun h1 => positionalRender_pos_some digits n h2 h1 hn,
   fun m hm => arabic_decimal m (by
     have hu : (10000 : Nat) < U64 := by decide
     omega)⟩

/-- Witness for C4 at the base-ten Arabic digit table and n = 7. -/
theorem C4_positional_witness :
    positionalRender arabicDigits 7 = some (Nat.repr 7) :=
  (C4_positional arabicDigits 7 (by decide) (by decide)).2.2.2 7 (by decide)

/-- C5: bijective enumeration in the 26-symbol lowercase Latin system:
1 through 26 render as "a" through "z", 27 as "aa", 28 as "ab", 702 as "zz",
and 703 as "aaa". -/
theorem C5_latin_enumeration :
    (∀ i : Fin latinChars.length, render lowerLatin (i.val + 1) =
      some (String.mk [latinChars.get i])) ∧
    render lowerLatin 27 = some ("aa") ∧ render lowerLatin 28 = some ("ab") ∧
    render lowerLatin 702 = some ("zz") ∧ render lowerLatin 703 = some ("aaa") := by
  decide

/-- C6: a Symbolic system with k ≥ 1 symbols renders n ≥ 1 as the symbol at
index `(n - 1) mod k` repeated `ceil(n / k)` times (for k ≥ 1 Rust's
`div_ceil` is `(n + k - 1) / k`); with the six note symbols, 1 renders "*",
6 renders "‖", 7 renders "**", 12 renders "‖‖", and 13 renders "***". -/
theorem C6_symbolic (symbols : List Char) (n : Nat)
    (hk : 1 ≤ symbols.length) (h1 : 1 ≤ n) :
    symbolicRender symbols n =
      some (String.mk (List.replicate ((n + symbols.length - 1) / symbols.length)
        (symbols.get ⟨(n - 1) % symbols.length, Nat.mod_lt _ (by omega)⟩))) ∧
    (render symbolSystem 1 = some ("*") ∧ render symbolSystem 6 = some ("‖") ∧
     render symbolSystem 7 = some ("**") ∧ render symbolSystem 12 = some ("‖‖") ∧
     render symbolSystem 13 = some ("***")) :=
  ⟨symbolicRender_pos symbols n hk h1, by decide⟩

/-- Witness for C6 at the six note symbols and n = 7 (two copies of "*"). -/
theorem C6_symbolic_witness :
    symbolicRender symbolChars 7 =
      some (String.mk (List.replicate ((7 + symbolChars.length - 1) / symbolChars.length)
        (symbolChars.get ⟨(7 - 1) % symbolChars.length, Nat.mod_lt _ (by decide)⟩))) :=
  (C6_symbolic symbolChars 7 (by decide) (by decide)).1

/-- C7: ZeroableFixed accepts exactly n < symbol-count and otherwise returns
`TooLarge`; NonZeroableFixed accepts exactly 1 ≤ n ≤ symbol-count, returns
`Zero` at n = 0 and `TooLarge` beyond the table; in particular the 51-symbol
circled table accepts [0, 50] and rejects 51, and the 10-symbol double-circled
table rejects 0, accepts [1, 10], and rejects 11. -/
theorem C7_fixed_bounds (symbols : List Char) (n : Nat) (_hn : n < U64) :
    ((NumeralSystem.ZeroableFixed symbols).apply n =
        Except.ok ⟨NumeralSystem.ZeroableFixed symbols, n⟩ ↔ n < symbols.length) ∧
    (symbols.length ≤ n →
      (NumeralSystem.ZeroableFixed symbols).apply n =
        Except.error RepresentationError.TooLarge) ∧
    ((NumeralSystem.NonZeroableFixed symbols).apply n =
        Except.ok ⟨NumeralSystem.NonZeroableFixed symbols, n⟩ ↔
      1 ≤ n ∧ n ≤ symbols.length) ∧
    (n = 0 → (NumeralSystem.NonZeroableFixed symbols).apply n =
        Except.error RepresentationError.Zero) ∧
    (symbols.length < n →
      (NumeralSystem.NonZeroableFixed symbols).apply n =
        Except.error RepresentationError.TooLarge) ∧
    (∀ i : Fin 51, circledArabic.apply i.val = Except.ok ⟨circledArabic, i.val⟩) ∧
    circledArabic.apply 51 = Except.error RepresentationError.TooLarge ∧
    doubleCircledArabic.apply 0 = Except.error RepresentationError.Zero ∧
    (∀ i : Fin 10, doubleCircledArabic.apply (i.val + 1) =
      Except.ok ⟨doubleCircledArabic, i.val + 1⟩) ∧
    doubleCircledArabic.apply 11 = Except.error RepresentationError.TooLarge := by
  refine ⟨?_, ?_, ?_, ?_, ?_, by decide, by decide, by decide, by decide, by decide⟩
  · rw [apply_zeroable]
    constructor
    · intro h
      by_contra hc
      rw [if_pos (by omega)] at h
      exact Except.noConfusion h
    · intro h
      rw [if_neg (by omega)]
  · intro h
    rw [apply_zeroable, if_pos h]
  · rw [apply_nonzeroable]
    constructor
    · intro h
      by_cases h0 : n = 0
      · rw [if_pos h0] at h
        exact Except.noConfusion h
      · rw [if_neg h0] at h
        by_cases hc : symbols.length < n
        · rw [if_pos hc] at h
          exact Except.noConfusion h
        · omega
    · rintro ⟨ha, hb⟩
      rw [if_neg (by omega), if_neg (by omega)]
  · intro h
    rw [apply_nonzeroable, if_pos h]
  · intro h
    rw [apply_nonzeroable, if_neg (by omega), if_pos h]

/-- Witness for C7 at the double-circled table and n = 5. -/
theorem C7_fixed_bounds_witness :
    (NumeralSystem.ZeroableFixed doubleCircledChars).apply 5 =
      Except.ok ⟨NumeralSystem.ZeroableFixed doubleCircledChars, 5⟩ :=
  (C7_fixed_bounds doubleCircledChars 5 (by decide)).1.mpr (by decide)

/-- C8: the lowercase Roman additive system renders 4 as "iv", 9 as "ix",
40 as "xl", 0 as "n" (the dedicated zero numeral), and 1994 as "mcmxciv". -/
theorem C8_roman_forms :
    render lowerRoman 4 = some ("iv") ∧ render lowerRoman 9 = some ("ix") ∧
    render lowerRoman 40 = some ("xl") ∧ render lowerRoman 0 = some ("n") ∧
    render lowerRoman 1994 = some ("mcmxciv") := by decide

/-- C9 (implicit): for the Additive kind, `apply` does not depend on the
number at all: it returns `Ok` for every n whenever the numeral list's last
entry has weight 0, and returns `Zero` for every n whenever it does not. -/
theorem C9_additive_apply_ignores_number (numerals : List (String × Nat)) (n : Nat) :
    ((∃ s, numerals.getLast? = some (s, 0)) →
      (NumeralSystem.Additive numerals).apply n =
        Except.ok ⟨NumeralSystem.Additive numerals, n⟩) ∧
    ((∀ s, ¬ numerals.getLast? = some (s, 0)) →
      (NumeralSystem.Additive numerals).apply n =
        Except.error RepresentationError.Zero) :=
  ⟨fun ⟨s, hs⟩ => apply_additive_zero_last numerals n s hs,
   fun h => apply_additive_no_zero_last numerals n h⟩

/-- Witness for C9 at n = 7: the Roman list (zero-weight last entry) is
accepted, the doc-example list (last weight 1) is rejected. -/
theorem C9_witness :
    (NumeralSystem.Additive lowerRomanNumerals).apply 7 =
      Except.ok ⟨NumeralSystem.Additive lowerRomanNumerals, 7⟩ ∧
    (NumeralSystem.Additive docExampleAdditive).apply 7 =
      Except.error RepresentationError.Zero :=
  ⟨(C9_additive_apply_ignores_number lowerRomanNumerals 7).1
     ⟨"n", by rw [show lowerRomanNumerals.getLast? = some ("n", 0) from rfl]⟩,
   (C9_additive_apply_ignores_number docExampleAdditive 7).2
     (by
       intro s
       rw [show docExampleAdditive.getLast? = some ("I", 1) from rfl]
       simp)⟩

/-- C10 counterexample: the claim says rendering is correct ONLY for n with
`(n + 1) * (radix - 1) < 2 ^ 64`.  At `overflowInput` with a three-symbol
table the product overflows u64, yet the wrapped computation happens to
recover the exact digit count, so the code's rendering coincides with the
exact-arithmetic algorithm and is a genuine (correct) rendering. -/
theorem C10_counterexample :
    U64 ≤ (overflowInput + 1) * (threeChars.length - 1) ∧
    bijectiveRender threeChars overflowInput = bijectiveSpec threeChars overflowInput ∧
    (bijectiveSpec threeChars overflowInput).isSome = true := by decide

/-- C10 (amended): the bijective digit-count expression is computed wrapping
modulo 2 ^ 64; there exists an n in the u64 range — n = 2 ^ 64 − 1, shown here
for the 26-symbol Latin system — for which `apply` succeeds but the wrapped
product differs from the exact one and the code's rendering panics while the
exact algorithm succeeds; and rendering is guaranteed to agree with the exact
algorithm whenever `(n + 1) * (radix - 1) < 2 ^ 64` (overflow can also agree
by coincidence, so "only" does not hold). -/
theorem C10_wrapping (digits : List Char) (n : Nat) (h2 : 2 ≤ digits.length)
    (h1 : 1 ≤ n) (hov : (n + 1) * (digits.length - 1) < U64) :
    lowerLatin.apply (U64 - 1) = Except.ok ⟨lowerLatin, U64 - 1⟩ ∧
    bijectiveWrapProduct latinChars.length (U64 - 1) ≠
      (U64 - 1 + 1) * (latinChars.length - 1) ∧
    render lowerLatin (U64 - 1) = none ∧
    (bijectiveSpec latinChars (U64 - 1)).isSome = true ∧
    bijectiveRender digits n = bijectiveSpec digits n := by
  refine ⟨by decide, by decide, by decide, by decide, ?_⟩
  have hn : n < U64 := by
    have := Nat.le_mul_of_pos_right (n + 1) (show 0 < digits.length - 1 by omega)
    omega
  rw [bijectiveRender_no_overflow digits n h2 h1 hov, bijectiveSpec_eq digits n h2 h1 hn]

/-- Witness for C10 at the Latin table and n = 30. -/
theorem C10_wrapping_witness :
    bijectiveRender latinChars 30 = bijectiveSpec latinChars 30 :=
  (C10_wrapping latinChars 30 (by decide) (by decide) (by decide)).2.2.2.2

end Numerals
